import Mathlib

/-!
Verification of the storage / alias-management layer of the `rokit` tool
version manager (`src/lib/storage/tool_storage.rs`, `src/lib/system/env/mod.rs`).

The filesystem is shallowly embedded: the alias directory is an association
list from entry names to entries (regular files with byte contents, or
symbolic links), the manager's executable on disk is an optional byte string,
and the in-process contents cache is an optional byte string.  Each fallible
I/O primitive of the source is additionally parameterised by a fault oracle
(`Faults`) that can inject an I/O error at that primitive, modelling the
nondeterminism of the operating system; the happy path is the oracle that
injects no fault.  Platform-dependent compile-time constants of the Rust
build (`EXE_SUFFIX`, `cfg!(unix)`, `MAIN_SEPARATOR_STR`) are gathered in a
`Platform` parameter.  Byte strings are lists of naturals; paths derived by
`tool_paths` are lists of path components (one list element per `join`).
-/

namespace Rokit

/-- Byte contents of a file (`Vec<u8>` in the source). -/
abbrev Bytes := List Nat

/-- Compile-time platform constants of the Rust build:
`std::env::consts::EXE_SUFFIX`, `cfg!(unix)`, and
`std::path::MAIN_SEPARATOR_STR`. -/
structure Platform where
  exeSuffix : String
  isUnix : Bool
  mainSeparator : String

/-- An I/O error (`std::io::Error`): file-not-found, or any other kind,
abstracted by a numeric code. -/
inductive IOErr where
  | notFound
  | other (code : Nat)
  deriving DecidableEq, Repr

/-- An entry of the alias directory: a regular file with byte contents, or a
symbolic link to another entry of the directory (targets are stored as the
target's entry name; the only target the code ever writes is the manager's
own alias file, which lives in the same directory). -/
inductive Entry where
  | file (contents : Bytes)
  | symlink (target : String)
  deriving DecidableEq, Repr

/-- A directory: an association list from entry names to entries.  Lookup
returns the first binding of a name. -/
abbrev Dir := List (String × Entry)

/-- First binding of a name in a directory. -/
def lookupEntry (d : Dir) (k : String) : Option Entry :=
  match d with
  | [] => none
  | (k', e) :: rest => if k' = k then some e else lookupEntry rest k

/-- Overwrite the first binding of a name in place (append at the end when the
name is absent): the model of writing to a path inside a directory. -/
def insertEntry (d : Dir) (k : String) (e : Entry) : Dir :=
  match d with
  | [] => [(k, e)]
  | (k', e') :: rest =>
      if k' = k then (k, e) :: rest else (k', e') :: insertEntry rest k e

/-- State touched by `ToolStorage`: the alias directory (`aliases_dir`), the
contents of the file at `current_exe_path` (`none` when absent), and the
in-process cache `current_exe_contents` guarded by the mutex in the source
(calls are modelled sequentially, so the mutex itself is invisible). -/
structure State where
  aliasDir : Dir
  exeFile : Option Bytes
  cache : Option Bytes
  deriving DecidableEq, Repr

/-- Fault oracle: for each fallible I/O primitive of `recreate_all_links` and
`aftman_contents`, optionally the error the operating system raises at it. -/
structure Faults where
  readExe : Option IOErr
  readDir : Option IOErr
  readAftman : Option IOErr
  writeAftman : Option IOErr
  writeLink : String → Option IOErr

/-- The fault-free oracle: no I/O primitive fails spuriously. -/
def noFaults : Faults :=
  { readExe := none, readDir := none, readAftman := none,
    writeAftman := none, writeLink := fun _ => none }

/-- A tool spec: author, name, and the rendered version string
(`spec.version().to_string()`). -/
structure ToolSpec where
  author : String
  name : String
  version : String
  deriving DecidableEq, Repr

/-- A tool alias (`ToolAlias`): just its name. -/
structure ToolAlias where
  name : String
  deriving DecidableEq, Repr

/-- The home-directory handle passed to `exists_in_path`; the source ignores
it (`_home`), so its content is irrelevant — we carry an arbitrary path. -/
structure Home where
  homePath : List String
  deriving DecidableEq, Repr

/-- The path-deriving part of `ToolStorage`: the root directory for tool
binaries, as a list of path components. -/
structure ToolStorage where
  tools_dir : List String
  deriving DecidableEq, Repr

/-- `ToolStorage::tool_paths` (tool_storage.rs:36-44): the per-version
directory `tools_dir/author/name/version` and the binary file path
`tools_dir/author/name/version/name<EXE_SUFFIX>`.  Pure — no I/O. -/
def ToolStorage.tool_paths (st : ToolStorage) (pl : Platform) (spec : ToolSpec) :
    List String × List String :=
  let tool_dir := st.tools_dir ++ [spec.author, spec.name, spec.version]
  let tool_file := tool_dir ++ [spec.name ++ pl.exeSuffix]
  (tool_dir, tool_file)

/-- `ToolStorage::tool_path` (tool_storage.rs:65-67): the second component of
`tool_paths`. -/
def ToolStorage.tool_path (st : ToolStorage) (pl : Platform) (spec : ToolSpec) :
    List String :=
  (st.tool_paths pl spec).2

/-- `exists_in_path` (env/mod.rs:34-39): ignores its `home` argument, returns
`false` when the `PATH` variable is unset, and otherwise splits `PATH` on
`':'` and tests whether some component ends with `"rokit<MAIN_SEPARATOR>bin"`.
The `PATH` environment variable is passed explicitly as `Option String`. -/
def exists_in_path (pl : Platform) (_home : Home) (pathVar : Option String) : Bool :=
  match pathVar with
  | none => false
  | some path =>
      (path.splitOn ":").any fun item =>
        item.endsWith ("rokit" ++ pl.mainSeparator ++ "bin")

/-- `ToolStorage::aftman_path` (tool_storage.rs:46-48): the manager's own
alias entry `aftman<EXE_SUFFIX>` inside `aliases_dir`.  Paths inside the
alias directory are modelled by their entry name within that directory. -/
def aftman_path (pl : Platform) : String :=
  "aftman" ++ pl.exeSuffix

/-- Modelled from the spec: `util::write_executable_file` (imported in
tool_storage.rs:18, its body is outside the given sources) writes the given
bytes to the given path with the platform's executable permission bits set,
"replacing any existing content (not merged ... last write wins)". -/
def write_executable_file (d : Dir) (k : String) (contents : Bytes) : Dir :=
  insertEntry d k (.file contents)

/-- Modelled from the spec: `util::write_executable_link` (imported in
tool_storage.rs:18, its body is outside the given sources) "(re)point[s] the
alias at the manager's alias path via a symbolic link (overwriting any
previous link or file at that location)". -/
def write_executable_link (d : Dir) (k : String) (target : String) : Dir :=
  insertEntry d k (.symlink target)

/-- Reading the byte contents at an entry name the way `tokio::fs::read`
does: follow a symbolic link to its target; an absent entry and a dangling
or cyclic link read as an error. -/
def readAlias (d : Dir) (k : String) : Except IOErr Bytes :=
  match lookupEntry d k with
  | none => .error .notFound
  | some (.file b) => .ok b
  | some (.symlink t) =>
      match lookupEntry d t with
      | some (.file b) => .ok b
      | _ => .error .notFound

/-- `ToolStorage::aftman_contents` (tool_storage.rs:50-58): under the cache
lock, return the cached bytes when present; otherwise read
`current_exe_path` from disk, populate the cache with those bytes and
return them.  The `Nat` counts the disk reads this call performed. -/
def aftman_contents (f : Faults) (s : State) : Except IOErr (Bytes × State × Nat) :=
  match s.cache with
  | some contents => .ok (contents, s, 0)
  | none =>
      match f.readExe with
      | some e => .error e
      | none =>
          match s.exeFile with
          | some contents => .ok (contents, { s with cache := some contents }, 1)
          | none => .error .notFound

/-- `ToolStorage::replace_aftman_contents` (tool_storage.rs:92-105): with
`some contents`, store them as the new cache value and write them to the
manager's alias path; with `none`, resolve the contents through
`aftman_contents` and write those.  The `Nat` counts disk reads of the
executable performed by the call. -/
def replace_aftman_contents (pl : Platform) (f : Faults) (s : State)
    (contents? : Option Bytes) : Except IOErr (State × Nat) :=
  match contents? with
  | some contents =>
      .ok ({ s with
              cache := some contents,
              aliasDir := write_executable_file s.aliasDir (aftman_path pl) contents }, 0)
  | none =>
      match aftman_contents f s with
      | .error e => .error e
      | .ok (contents, s1, n) =>
          .ok ({ s1 with
                 aliasDir := write_executable_file s1.aliasDir (aftman_path pl) contents }, n)

/-- `ToolStorage::create_tool_link` (tool_storage.rs:112-117): resolve the
manager's bytes through the cache, then write them as an executable file at
`aliases_dir/alias.name()` — an unconditional full copy, with no platform
branch and no symbolic link. -/
def create_tool_link (f : Faults) (s : State) (a : ToolAlias) :
    Except IOErr State :=
  match aftman_contents f s with
  | .error e => .error e
  | .ok (contents, s1, _) =>
      .ok { s1 with aliasDir := write_executable_file s1.aliasDir a.name contents }

/-- The change-detection read of `recreate_all_links` (tool_storage.rs:148):
`read(&aftman_path).await.unwrap_or_default()` — the prior bytes of the
manager's alias, with any failure of the read (absence or any injected
error) collapsed to empty bytes. -/
def existingAftmanBytes (pl : Platform) (f : Faults) (d : Dir) : Bytes :=
  match (match f.readAftman with
         | some e => .error e
         | none => readAlias d (aftman_path pl) : Except IOErr Bytes) with
  | .ok b => b
  | .error _ => []

/-- The per-alias fan-out of `recreate_all_links` (tool_storage.rs:154-165),
sequentialised in enumeration order: each link path is rewritten as a
symbolic link to the manager's alias path when `cfg!(unix)`, and as a full
copy of the resolved contents otherwise; the first failure aborts, keeping
the writes already made (`FuturesUnordered` + `try_collect`). -/
def writeLinks (pl : Platform) (f : Faults) (contents : Bytes) (target : String) :
    List String → Dir → Except IOErr Dir
  | [], d => .ok d
  | n :: rest, d =>
      match f.writeLink n with
      | some e => .error e
      | none =>
          writeLinks pl f contents target rest
            (if pl.isUnix then write_executable_link d n target
             else write_executable_file d n contents)

/-- `ToolStorage::recreate_all_links` (tool_storage.rs:130-168): resolve the
manager's bytes through the cache; enumerate the alias directory,
partitioning entries into the manager's own path (a found-flag) and all
other link paths; compare the prior manager-alias bytes (any read failure
collapsed to empty) against the resolved contents; unconditionally rewrite
the manager's alias; then rewrite every other link.  Returns the found-flag
and the changed-flag. -/
def recreate_all_links (pl : Platform) (f : Faults) (s : State) :
    Except IOErr (State × Bool × Bool) :=
  match aftman_contents f s with
  | .error e => .error e
  | .ok (contents, s1, _) =>
      match f.readDir with
      | some e => .error e
      | none =>
          let names := s1.aliasDir.map Prod.fst
          let aftman_found := decide (aftman_path pl ∈ names)
          let link_paths := names.filter fun nm => !decide (nm = aftman_path pl)
          let existing := existingAftmanBytes pl f s1.aliasDir
          let was_aftman_updated := !decide (existing = contents)
          match f.writeAftman with
          | some e => .error e
          | none =>
              match writeLinks pl f contents (aftman_path pl) link_paths
                  (write_executable_file s1.aliasDir (aftman_path pl) contents) with
              | .error e => .error e
              | .ok d2 => .ok ({ s1 with aliasDir := d2 }, aftman_found, was_aftman_updated)

theorem lookupEntry_insertEntry (d : Dir) (k m : String) (e : Entry) :
    lookupEntry (insertEntry d k e) m =
      if k = m then some e else lookupEntry d m := by
  induction d with
  | nil => simp [insertEntry, lookupEntry]
  | cons p rest ih =>
      obtain ⟨k', e'⟩ := p
      by_cases hk : k' = k
      · subst hk
        by_cases hm : k' = m <;> simp [insertEntry, lookupEntry, hm]
      · by_cases hm : k' = m
        · subst hm
          have : ¬ k = k' := fun h => hk h.symm
          simp [insertEntry, lookupEntry, hk, this]
        · simp [insertEntry, lookupEntry, hk, hm, ih]

theorem mem_map_fst_insertEntry (d : Dir) (k m : String) (e : Entry) :
    m ∈ (insertEntry d k e).map Prod.fst ↔
      m = k ∨ m ∈ d.map Prod.fst := by
  induction d with
  | nil => simp [insertEntry]
  | cons p rest ih =>
      obtain ⟨k', e'⟩ := p
      by_cases hk : k' = k
      · subst hk; simp [insertEntry]
      · simp [insertEntry, hk, ih]
        tauto

theorem lookupEntry_eq_none_of_not_mem (d : Dir) (m : String)
    (h : m ∉ d.map Prod.fst) : lookupEntry d m = none := by
  induction d with
  | nil => rfl
  | cons p rest ih =>
      obtain ⟨k', e'⟩ := p
      simp only [List.map_cons, List.mem_cons] at h
      push_neg at h
      have : k' ≠ m := fun hh => h.1 hh.symm
      simp [lookupEntry, this, ih h.2]

theorem mem_of_lookupEntry_eq_some (d : Dir) (m : String) (e : Entry)
    (h : lookupEntry d m = some e) : m ∈ d.map Prod.fst := by
  induction d with
  | nil => simp [lookupEntry] at h
  | cons p rest ih =>
      obtain ⟨k', e'⟩ := p
      by_cases hk : k' = m
      · simp [hk]
      · simp only [lookupEntry, hk, if_false] at h
        simp [ih h]

theorem aftman_contents_ok_elim (f : Faults) (s : State) (c : Bytes)
    (s1 : State) (n : Nat) (h : aftman_contents f s = .ok (c, s1, n)) :
    s1.aliasDir = s.aliasDir ∧ s1.exeFile = s.exeFile ∧ s1.cache = some c := by
  unfold aftman_contents at h
  cases hc : s.cache with
  | some b =>
      rw [hc] at h
      simp only [Except.ok.injEq, Prod.mk.injEq] at h
      obtain ⟨rfl, rfl, -⟩ := h
      exact ⟨rfl, rfl, hc⟩
  | none =>
      rw [hc] at h
      cases hf : f.readExe with
      | some e => rw [hf] at h; simp at h
      | none =>
          rw [hf] at h
          cases hd : s.exeFile with
          | none => rw [hd] at h; simp at h
          | some b =>
              rw [hd] at h
              simp only [Except.ok.injEq, Prod.mk.injEq] at h
              obtain ⟨rfl, rfl, -⟩ := h
              exact ⟨rfl, rfl, rfl⟩

theorem aftman_contents_cached (f : Faults) (s : State) (c : Bytes)
    (h : s.cache = some c) : aftman_contents f s = .ok (c, s, 0) := by
  simp [aftman_contents, h]

theorem writeLink_step (pl : Platform) (d : Dir) (n t : String) (c : Bytes) :
    (if pl.isUnix then write_executable_link d n t
     else write_executable_file d n c) =
      insertEntry d n (if pl.isUnix then Entry.symlink t else Entry.file c) := by
  cases hu : pl.isUnix <;> simp [write_executable_link, write_executable_file]

theorem writeLinks_lookup (pl : Platform) (f : Faults) (c : Bytes) (t : String)
    (m : String) :
    ∀ (ns : List String) (d d' : Dir),
      writeLinks pl f c t ns d = .ok d' →
      (m ∈ ns → lookupEntry d' m =
          some (if pl.isUnix then Entry.symlink t else Entry.file c))
      ∧ (m ∉ ns → lookupEntry d' m = lookupEntry d m) := by
  intro ns
  induction ns with
  | nil =>
      intro d d' hw
      simp only [writeLinks, Except.ok.injEq] at hw
      subst hw
      simp
  | cons n rest ih =>
      intro d d' hw
      cases hf : f.writeLink n with
      | some e => simp [writeLinks, hf] at hw
      | none =>
          simp only [writeLinks, hf] at hw
          rw [writeLink_step] at hw
          have ih' := ih _ _ hw
          constructor
          · intro hm
            rcases List.mem_cons.mp hm with rfl | hm'
            · by_cases hr : m ∈ rest
              · exact ih'.1 hr
              · rw [ih'.2 hr, lookupEntry_insertEntry]
                simp
            · exact ih'.1 hm'
          · intro hm
            simp only [List.mem_cons, not_or] at hm
            rw [ih'.2 hm.2, lookupEntry_insertEntry,
              if_neg (fun hnm => hm.1 hnm.symm)]

theorem writeLinks_mem_keys (pl : Platform) (f : Faults) (c : Bytes) (t : String)
    (m : String) :
    ∀ (ns : List String) (d d' : Dir),
      writeLinks pl f c t ns d = .ok d' →
      (m ∈ d'.map Prod.fst ↔ m ∈ d.map Prod.fst ∨ m ∈ ns) := by
  intro ns
  induction ns with
  | nil =>
      intro d d' hw
      simp only [writeLinks, Except.ok.injEq] at hw
      subst hw
      simp
  | cons n rest ih =>
      intro d d' hw
      cases hf : f.writeLink n with
      | some e => simp [writeLinks, hf] at hw
      | none =>
          simp only [writeLinks, hf] at hw
          rw [writeLink_step] at hw
          rw [ih _ _ hw, mem_map_fst_insertEntry]
          simp [List.mem_cons]
          tauto

theorem writeLinks_total (pl : Platform) (f : Faults) (c : Bytes) (t : String) :
    ∀ (ns : List String), (∀ n ∈ ns, f.writeLink n = none) →
      ∀ (d : Dir), ∃ d', writeLinks pl f c t ns d = .ok d' := by
  intro ns
  induction ns with
  | nil => intro _ d; exact ⟨d, rfl⟩
  | cons n rest ih =>
      intro h d
      have hn := h n (List.mem_cons_self n rest)
      obtain ⟨d', hd'⟩ :=
        ih (fun m hm => h m (List.mem_cons_of_mem _ hm))
          (if pl.isUnix then write_executable_link d n t
           else write_executable_file d n c)
      exact ⟨d', by simp [writeLinks, hn, hd']⟩

theorem writeLinks_single_fault (pl : Platform) (f : Faults) (c : Bytes)
    (t nm : String) (e : IOErr) (hf : f.writeLink nm = some e)
    (hothers : ∀ m, m ≠ nm → f.writeLink m = none) :
    ∀ (ns : List String) (d : Dir), nm ∈ ns →
      writeLinks pl f c t ns d = .error e := by
  intro ns
  induction ns with
  | nil => intro d h; simp at h
  | cons n rest ih =>
      intro d hmem
      by_cases hn : n = nm
      · subst hn; simp [writeLinks, hf]
      · have hr : nm ∈ rest := by
          rcases List.mem_cons.mp hmem with h | h
          · exact absurd h.symm hn
          · exact h
        simp [writeLinks, hothers n hn, ih _ hr]

theorem recreate_ok_elim (pl : Platform) (f : Faults) (s s' : State)
    (fd ch : Bool) (h : recreate_all_links pl f s = .ok (s', fd, ch)) :
    ∃ c s1 n d2,
      aftman_contents f s = .ok (c, s1, n)
      ∧ f.readDir = none ∧ f.writeAftman = none
      ∧ writeLinks pl f c (aftman_path pl)
          ((s1.aliasDir.map Prod.fst).filter
            (fun nm => !decide (nm = aftman_path pl)))
          (write_executable_file s1.aliasDir (aftman_path pl) c) = .ok d2
      ∧ s' = { s1 with aliasDir := d2 }
      ∧ fd = decide (aftman_path pl ∈ s1.aliasDir.map Prod.fst)
      ∧ ch = (!decide (existingAftmanBytes pl f s1.aliasDir = c)) := by
  cases hc : aftman_contents f s with
  | error e => simp [recreate_all_links, hc] at h
  | ok r =>
      obtain ⟨c, s1, n⟩ := r
      cases hrd : f.readDir with
      | some e => simp [recreate_all_links, hc, hrd] at h
      | none =>
          cases hwa : f.writeAftman with
          | some e => simp [recreate_all_links, hc, hrd, hwa] at h
          | none =>
              cases hw : writeLinks pl f c (aftman_path pl)
                  ((s1.aliasDir.map Prod.fst).filter
                    (fun nm => !decide (nm = aftman_path pl)))
                  (write_executable_file s1.aliasDir (aftman_path pl) c) with
              | error e =>
                  simp only [recreate_all_links, hc, hrd, hwa, hw] at h
                  exact Except.noConfusion h
              | ok d2 =>
                  simp only [recreate_all_links, hc, hrd, hwa, hw,
                    Except.ok.injEq, Prod.mk.injEq] at h
                  obtain ⟨h1, h2, h3⟩ := h
                  exact ⟨c, s1, n, d2, rfl, rfl, rfl, hw,
                    h1.symm, h2.symm, h3.symm⟩

theorem recreate_eq (pl : Platform) (f : Faults) (s : State) (c : Bytes)
    (s1 : State) (n : Nat) (d2 : Dir)
    (hc : aftman_contents f s = .ok (c, s1, n))
    (hrd : f.readDir = none) (hwa : f.writeAftman = none)
    (hw : writeLinks pl f c (aftman_path pl)
        ((s1.aliasDir.map Prod.fst).filter
          (fun nm => !decide (nm = aftman_path pl)))
        (write_executable_file s1.aliasDir (aftman_path pl) c) = .ok d2) :
    recreate_all_links pl f s =
      .ok ({ s1 with aliasDir := d2 },
        decide (aftman_path pl ∈ s1.aliasDir.map Prod.fst),
        !decide (existingAftmanBytes pl f s1.aliasDir = c)) := by
  simp only [recreate_all_links, hc, hrd, hwa, hw]

theorem recreate_post (pl : Platform) (f : Faults) (s s' : State)
    (fd ch : Bool) (c : Bytes) (s1 : State) (n : Nat)
    (hc : aftman_contents f s = .ok (c, s1, n))
    (h : recreate_all_links pl f s = .ok (s', fd, ch)) :
    s'.cache = some c ∧ s'.exeFile = s.exeFile
    ∧ lookupEntry s'.aliasDir (aftman_path pl) = some (Entry.file c)
    ∧ (∀ m, m ∈ s'.aliasDir.map Prod.fst ↔
        (m ∈ s.aliasDir.map Prod.fst ∨ m = aftman_path pl))
    ∧ (∀ m, m ∈ s.aliasDir.map Prod.fst → m ≠ aftman_path pl →
        lookupEntry s'.aliasDir m =
          some (if pl.isUnix then Entry.symlink (aftman_path pl)
                else Entry.file c)) := by
  obtain ⟨c', s1', n', d2, hc', hrd, hwa, hw, hs', hfd, hch⟩ :=
    recreate_ok_elim pl f s s' fd ch h
  rw [hc] at hc'
  simp only [Except.ok.injEq, Prod.mk.injEq] at hc'
  obtain ⟨rfl, rfl, rfl⟩ := hc'
  obtain ⟨ha, he, hcache⟩ := aftman_contents_ok_elim f s c s1 n hc
  subst hs'
  have haft_not_mem :
      aftman_path pl ∉
        (s1.aliasDir.map Prod.fst).filter
          (fun nm => !decide (nm = aftman_path pl)) := by
    simp [List.mem_filter]
  have haft :
      lookupEntry d2 (aftman_path pl) = some (Entry.file c) := by
    rw [(writeLinks_lookup pl f c (aftman_path pl) (aftman_path pl) _ _ _ hw).2
      haft_not_mem]
    unfold write_executable_file
    rw [lookupEntry_insertEntry]
    simp
  refine ⟨hcache, he, haft, ?_, ?_⟩
  · intro m
    rw [writeLinks_mem_keys pl f c (aftman_path pl) m _ _ _ hw]
    unfold write_executable_file
    rw [mem_map_fst_insertEntry]
    simp only [List.mem_filter, Bool.not_eq_eq_eq_not, Bool.not_true,
      decide_eq_false_iff_not, ha]
    tauto
  · intro m hm hne
    have hmem : m ∈ (s1.aliasDir.map Prod.fst).filter
        (fun nm => !decide (nm = aftman_path pl)) := by
      simp [List.mem_filter, ha, hm, hne]
    exact (writeLinks_lookup pl f c (aftman_path pl) m _ _ _ hw).1 hmem

/-- C6: `tool_path` is a pure deterministic function equal to
`tools_dir/author/name/version/name<EXE_SUFFIX>`; calling it twice on the
same triple yields identical paths, and distinct triples yield distinct
paths.  (Purity and absence of I/O are reflected by the embedding: the
function consumes and produces plain data, with no `Faults` or `State`.) -/
theorem C6_tool_path_pure_deterministic_injective
    (st : ToolStorage) (pl : Platform) (s1 s2 : ToolSpec) :
    st.tool_path pl s1 =
      st.tools_dir ++ [s1.author, s1.name, s1.version, s1.name ++ pl.exeSuffix]
    ∧ st.tool_path pl s1 = st.tool_path pl s1
    ∧ (st.tool_path pl s1 = st.tool_path pl s2 → s1 = s2) := by
  refine ⟨by simp [ToolStorage.tool_path, ToolStorage.tool_paths], rfl, ?_⟩
  intro h
  obtain ⟨a1, n1, v1⟩ := s1
  obtain ⟨a2, n2, v2⟩ := s2
  simp only [ToolStorage.tool_path, ToolStorage.tool_paths, List.append_assoc,
    List.cons_append, List.nil_append, List.singleton_append] at h
  have h' := List.append_cancel_left h
  simp only [List.cons.injEq] at h'
  obtain ⟨ha, hn, hv, -⟩ := h'
  simp [ha, hn, hv]

/-- Witness for C6 at a concrete storage, platform and pair of specs. -/
theorem C6_witness :
    (ToolStorage.mk ["home", "tool-storage"]).tool_path
        (Platform.mk "" true "/") (ToolSpec.mk "acme" "foo" "1.2.3") =
      ["home", "tool-storage", "acme", "foo", "1.2.3", "foo"] ∧
    ToolSpec.mk "acme" "foo" "1.2.3" = ToolSpec.mk "acme" "foo" "1.2.3" := by
  refine ⟨(C6_tool_path_pure_deterministic_injective
    (ToolStorage.mk ["home", "tool-storage"]) (Platform.mk "" true "/")
    (ToolSpec.mk "acme" "foo" "1.2.3") (ToolSpec.mk "acme" "foo" "1.2.3")).1.trans
    (by decide), ?_⟩
  exact (C6_tool_path_pure_deterministic_injective
    (ToolStorage.mk ["home", "tool-storage"]) (Platform.mk "" true "/")
    (ToolSpec.mk "acme" "foo" "1.2.3") (ToolSpec.mk "acme" "foo" "1.2.3")).2.2 rfl

/-- C10: `exists_in_path` is independent of its `home` argument — any two
`Home` values give the same boolean on the same `PATH` contents; it returns
`true` exactly when some `':'`-separated component of `PATH` ends with
`"rokit<MAIN_SEPARATOR>bin"`, and `false` when `PATH` is unset. -/
theorem C10_exists_in_path_home_independent
    (pl : Platform) (h1 h2 : Home) (pathVar : Option String) (p : String) :
    exists_in_path pl h1 pathVar = exists_in_path pl h2 pathVar
    ∧ (exists_in_path pl h1 (some p) = true ↔
        ∃ item ∈ p.splitOn ":",
          item.endsWith ("rokit" ++ pl.mainSeparator ++ "bin") = true)
    ∧ exists_in_path pl h1 none = false := by
  refine ⟨rfl, ?_, rfl⟩
  simp [exists_in_path, List.any_eq_true]

/-- C1 (amended): on a fresh (empty) alias directory, a successful
`recreate_all_links` creates exactly the manager's own entry — one entry per
tool alias enumerated from the directory (there are none) plus the manager's
own — and returns `found = false`, with `changed = true` exactly when the
resolved manager bytes are nonempty (an empty manager binary compares equal
to the empty prior content, giving `changed = false`). -/
theorem C1_fresh_recreate (pl : Platform) (f : Faults) (s s' : State)
    (c : Bytes) (s1 : State) (n : Nat) (fd ch : Bool)
    (hfresh : s.aliasDir = [])
    (hc : aftman_contents f s = .ok (c, s1, n))
    (h : recreate_all_links pl f s = .ok (s', fd, ch)) :
    s'.aliasDir = [(aftman_path pl, Entry.file c)]
    ∧ fd = false
    ∧ ch = (!decide (c = [])) := by
  obtain ⟨c', s1', n', d2, hc', hrd, hwa, hw, hs', hfd, hch⟩ :=
    recreate_ok_elim pl f s s' fd ch h
  rw [hc] at hc'
  simp only [Except.ok.injEq, Prod.mk.injEq] at hc'
  obtain ⟨rfl, rfl, rfl⟩ := hc'
  obtain ⟨ha, he, hcache⟩ := aftman_contents_ok_elim f s c s1 n hc
  rw [hfresh] at ha
  rw [ha] at hw hfd hch
  simp only [List.map_nil, List.filter_nil, writeLinks, Except.ok.injEq] at hw
  have hex : existingAftmanBytes pl f [] = [] := by
    cases hfa : f.readAftman <;>
      simp [existingAftmanBytes, hfa, readAlias, lookupEntry]
  rw [hex] at hch
  subst hs'
  refine ⟨?_, by simpa using hfd, by simpa [eq_comm] using hch⟩
  rw [← hw]
  simp [write_executable_file, insertEntry]

/-- Witness for C1 at a fresh directory with manager bytes `[1]`. -/
theorem C1_witness :
    (State.mk [("aftman", Entry.file [1])] (some [1]) (some [1])).aliasDir =
      [(aftman_path (Platform.mk "" true "/"), Entry.file [1])]
    ∧ (false : Bool) = false
    ∧ (true : Bool) = (!decide (([1] : Bytes) = [])) :=
  C1_fresh_recreate (Platform.mk "" true "/") noFaults
    (State.mk [] (some [1]) none)
    (State.mk [("aftman", Entry.file [1])] (some [1]) (some [1]))
    [1] (State.mk [] (some [1]) (some [1])) 1 false true rfl rfl rfl

/-- C1 counterexample: with an empty manager executable, a successful run on
a fresh alias directory returns `changed = false`, not `changed = true` as
the claim states. -/
theorem C1_counterexample :
    ¬ ∀ r, recreate_all_links (Platform.mk "" true "/") noFaults
        (State.mk [] (some []) none) = Except.ok r →
      (r.2.1 = false ∧ r.2.2 = true) := by
  intro hall
  have h2 := hall
    (State.mk [("aftman", Entry.file [])] (some []) (some []), false, false)
    rfl
  exact absurd h2.2 (by decide)

/-- C4 (amended): when a successful `recreate_all_links` did not find the
manager's alias during enumeration, the change-detection comparison runs
against empty prior content, so `changed` is `true` exactly when the
resolved manager bytes are nonempty; `(found, changed) = (false, false)` is
possible, but only for an empty manager binary. -/
theorem C4_not_found_changed (pl : Platform) (f : Faults) (s s' : State)
    (c : Bytes) (s1 : State) (n : Nat) (ch : Bool)
    (hc : aftman_contents f s = .ok (c, s1, n))
    (h : recreate_all_links pl f s = .ok (s', false, ch)) :
    ch = (!decide (c = [])) := by
  obtain ⟨c', s1', n', d2, hc', hrd, hwa, hw, hs', hfd, hch⟩ :=
    recreate_ok_elim pl f s s' false ch h
  rw [hc] at hc'
  simp only [Except.ok.injEq, Prod.mk.injEq] at hc'
  obtain ⟨rfl, rfl, rfl⟩ := hc'
  have hnotmem : aftman_path pl ∉ s1.aliasDir.map Prod.fst :=
    decide_eq_false_iff_not.mp hfd.symm
  have hlook : lookupEntry s1.aliasDir (aftman_path pl) = none :=
    lookupEntry_eq_none_of_not_mem _ _ hnotmem
  have hex : existingAftmanBytes pl f s1.aliasDir = [] := by
    cases hfa : f.readAftman <;>
      simp [existingAftmanBytes, hfa, readAlias, hlook]
  rw [hex] at hch
  simpa [eq_comm] using hch

/-- Witness for C4 at a fresh directory with manager bytes `[2]`. -/
theorem C4_witness :
    (true : Bool) = (!decide (([2] : Bytes) = [])) :=
  C4_not_found_changed (Platform.mk "" true "/") noFaults
    (State.mk [] (some [2]) none)
    (State.mk [("aftman", Entry.file [2])] (some [2]) (some [2]))
    [2] (State.mk [] (some [2]) (some [2])) 1 true rfl rfl

/-- C4 counterexample: a successful run with an empty manager binary and no
pre-existing manager alias returns the pair `(found = false,
changed = false)`, which the claim says is never possible. -/
theorem C4_counterexample :
    ¬ ∀ r, recreate_all_links (Platform.mk "" true "/") noFaults
        (State.mk [("x", Entry.file [5])] (some []) none) = Except.ok r →
      ¬ (r.2.1 = false ∧ r.2.2 = false) := by
  intro hall
  exact hall
    (State.mk [("x", Entry.symlink "aftman"), ("aftman", Entry.file [])]
      (some []) (some []), false, false)
    rfl ⟨rfl, rfl⟩

/-- C7: on an empty cache, `aftman_contents` reads the executable from disk
exactly once (the count is 1) and populates the cache with exactly the bytes
read; every call on a populated cache — i.e. any subsequent call with no
intervening replace — performs no disk read (the count is 0) and returns
bytes identical to the cached value. -/
theorem C7_aftman_contents_cache (f f2 : Faults) (s : State) (b : Bytes)
    (hcache : s.cache = none) (hdisk : s.exeFile = some b)
    (hf : f.readExe = none) :
    aftman_contents f s = .ok (b, { s with cache := some b }, 1)
    ∧ (∀ s' cb, s'.cache = some cb → aftman_contents f2 s' = .ok (cb, s', 0)) := by
  constructor
  · simp [aftman_contents, hcache, hf, hdisk]
  · intro s' cb h
    simp [aftman_contents, h]

/-- Witness for C7: a first read of bytes `[3]` followed by a cached call. -/
theorem C7_witness :
    aftman_contents noFaults (State.mk [] (some [3]) none) =
      .ok ([3], State.mk [] (some [3]) (some [3]), 1)
    ∧ aftman_contents noFaults (State.mk [] (some [3]) (some [3])) =
      .ok ([3], State.mk [] (some [3]) (some [3]), 0) := by
  have h := C7_aftman_contents_cache noFaults noFaults
    (State.mk [] (some [3]) none) [3] rfl rfl rfl
  exact ⟨h.1, h.2 (State.mk [] (some [3]) (some [3])) [3] rfl⟩

/-- C8: `replace_aftman_contents` with `some c` overwrites the cache with
`c` and writes `c` to the manager's alias path; with `none` it writes the
currently cached bytes to the manager's alias path — reading the executable
from disk exactly once when the cache was empty, and not at all when it was
already populated. -/
theorem C8_replace_aftman_contents (pl : Platform) (f : Faults) (s : State)
    (c b cc : Bytes) (hdisk : s.exeFile = some b) (hf : f.readExe = none) :
    replace_aftman_contents pl f s (some c) =
      .ok ({ s with
              cache := some c,
              aliasDir := write_executable_file s.aliasDir (aftman_path pl) c },
        0)
    ∧ (s.cache = none → replace_aftman_contents pl f s none =
        .ok ({ s with
                cache := some b,
                aliasDir := write_executable_file s.aliasDir (aftman_path pl) b },
          1))
    ∧ (s.cache = some cc → replace_aftman_contents pl f s none =
        .ok ({ s with
                aliasDir := write_executable_file s.aliasDir (aftman_path pl) cc },
          0)) := by
  refine ⟨rfl, ?_, ?_⟩
  · intro hcache
    simp [replace_aftman_contents, aftman_contents, hcache, hf, hdisk]
  · intro hcache
    simp [replace_aftman_contents, aftman_contents, hcache]

/-- Witness for C8: replacing with bytes `[9]`, and re-linking with an empty
cache from on-disk bytes `[4]`. -/
theorem C8_witness :
    replace_aftman_contents (Platform.mk "" true "/") noFaults
        (State.mk [] (some [4]) none) (some [9]) =
      .ok (State.mk [("aftman", Entry.file [9])] (some [4]) (some [9]), 0)
    ∧ replace_aftman_contents (Platform.mk "" true "/") noFaults
        (State.mk [] (some [4]) none) none =
      .ok (State.mk [("aftman", Entry.file [4])] (some [4]) (some [4]), 1) := by
  have h := C8_replace_aftman_contents (Platform.mk "" true "/") noFaults
    (State.mk [] (some [4]) none) [9] [4] [] rfl rfl
  exact ⟨h.1, h.2.1 rfl⟩

/-- C2: when a fault-free `recreate_all_links` succeeds and is called a
second time with no intervening change to the filesystem or the cache, the
second call returns `(found = true, changed = false)`, and afterwards every
name in the alias directory resolves — through the symbolic link or the
copy — to the manager bytes held in the cache. -/
theorem C2_recreate_idempotent (pl : Platform) (s t : State) (fd ch : Bool)
    (h : recreate_all_links pl noFaults s = .ok (t, fd, ch)) :
    ∃ t' c, recreate_all_links pl noFaults t = .ok (t', true, false)
      ∧ t'.cache = some c
      ∧ (∀ m, m ∈ t'.aliasDir.map Prod.fst →
          readAlias t'.aliasDir m = .ok c) := by
  obtain ⟨c, s1, n, d2, hc, -, -, -, -, -, -⟩ :=
    recreate_ok_elim pl noFaults s t fd ch h
  obtain ⟨hcache, -, haft, -, -⟩ :=
    recreate_post pl noFaults s t fd ch c s1 n hc h
  have hc2 : aftman_contents noFaults t = .ok (c, t, 0) :=
    aftman_contents_cached _ _ _ hcache
  obtain ⟨d2', hw2⟩ := writeLinks_total pl noFaults c (aftman_path pl)
    ((t.aliasDir.map Prod.fst).filter (fun nm => !decide (nm = aftman_path pl)))
    (fun _ _ => rfl)
    (write_executable_file t.aliasDir (aftman_path pl) c)
  have hrun2 := recreate_eq pl noFaults t c t 0 d2' hc2 rfl rfl hw2
  have hfound : decide (aftman_path pl ∈ t.aliasDir.map Prod.fst) = true :=
    decide_eq_true (mem_of_lookupEntry_eq_some _ _ _ haft)
  have hex : existingAftmanBytes pl noFaults t.aliasDir = c := by
    simp [existingAftmanBytes, noFaults, readAlias, haft]
  rw [hfound, hex] at hrun2
  have hchf : (!decide (c = c)) = false := by simp
  rw [hchf] at hrun2
  obtain ⟨hcache2, -, haft2, hkeys2, hform2⟩ :=
    recreate_post pl noFaults t _ true false c t 0 hc2 hrun2
  refine ⟨_, c, hrun2, hcache2, ?_⟩
  intro m hm
  by_cases hmaft : m = aftman_path pl
  · subst hmaft
    simp [readAlias, haft2]
  · have hmem_t : m ∈ t.aliasDir.map Prod.fst := by
      rcases (hkeys2 m).mp hm with h1 | h1
      · exact h1
      · exact absurd h1 hmaft
    have hf2 := hform2 m hmem_t hmaft
    cases hu : pl.isUnix with
    | true =>
        rw [hu] at hf2
        simp only [if_true] at hf2
        simp [readAlias, hf2, haft2]
    | false =>
        rw [hu] at hf2
        simp only [Bool.false_eq_true, if_false] at hf2
        simp [readAlias, hf2]

/-- Witness for C2: the second run after installing on a fresh directory
with manager bytes `[1]`. -/
theorem C2_witness :
    ∃ t' c, recreate_all_links (Platform.mk "" true "/") noFaults
        (State.mk [("aftman", Entry.file [1])] (some [1]) (some [1])) =
      .ok (t', true, false)
      ∧ t'.cache = some c
      ∧ (∀ m, m ∈ t'.aliasDir.map Prod.fst →
          readAlias t'.aliasDir m = .ok c) :=
  C2_recreate_idempotent (Platform.mk "" true "/")
    (State.mk [] (some [1]) none)
    (State.mk [("aftman", Entry.file [1])] (some [1]) (some [1]))
    false true rfl

/-- C3 (amended): the per-alias writes of `recreate_all_links` follow the
platform branch — on a platform with symbolic links every alias other than
the manager's own becomes a symbolic link to the manager's alias path,
otherwise a byte-identical full copy of the resolved contents — whereas
`create_tool_link` writes a byte-identical full copy of the resolved
manager contents on every platform, never a symbolic link. -/
theorem C3_alias_physical_form (pl : Platform) (f : Faults) (s s' : State)
    (fd ch : Bool) (c : Bytes) (s1 : State) (n : Nat) (a : ToolAlias)
    (s2 : State)
    (hc : aftman_contents f s = .ok (c, s1, n))
    (h : recreate_all_links pl f s = .ok (s', fd, ch))
    (hcl : create_tool_link f s a = .ok s2)
    (m : String) (hm : m ∈ s.aliasDir.map Prod.fst)
    (hne : m ≠ aftman_path pl) :
    lookupEntry s'.aliasDir m =
      some (if pl.isUnix then Entry.symlink (aftman_path pl) else Entry.file c)
    ∧ lookupEntry s2.aliasDir a.name = some (Entry.file c) := by
  have post := recreate_post pl f s s' fd ch c s1 n hc h
  refine ⟨post.2.2.2.2 m hm hne, ?_⟩
  unfold create_tool_link at hcl
  rw [hc] at hcl
  simp only [Except.ok.injEq] at hcl
  subst hcl
  unfold write_executable_file
  rw [lookupEntry_insertEntry]
  simp

/-- Witness for C3 at a unix platform, a directory holding a stale alias
`bar`, and a new alias `foo`. -/
theorem C3_witness :
    lookupEntry [("bar", Entry.symlink "aftman"), ("aftman", Entry.file [1, 2])]
        "bar" =
      some (if (Platform.mk "" true "/").isUnix then
          Entry.symlink (aftman_path (Platform.mk "" true "/"))
        else Entry.file [1, 2])
    ∧ lookupEntry [("bar", Entry.file [9]), ("aftman", Entry.file [9]),
        ("foo", Entry.file [1, 2])] (ToolAlias.mk "foo").name =
      some (Entry.file [1, 2]) :=
  C3_alias_physical_form (Platform.mk "" true "/") noFaults
    (State.mk [("bar", Entry.file [9]), ("aftman", Entry.file [9])]
      (some [1, 2]) none)
    (State.mk [("bar", Entry.symlink "aftman"), ("aftman", Entry.file [1, 2])]
      (some [1, 2]) (some [1, 2]))
    true true [1, 2]
    (State.mk [("bar", Entry.file [9]), ("aftman", Entry.file [9])]
      (some [1, 2]) (some [1, 2]))
    1 (ToolAlias.mk "foo")
    (State.mk [("bar", Entry.file [9]), ("aftman", Entry.file [9]),
      ("foo", Entry.file [1, 2])] (some [1, 2]) (some [1, 2]))
    rfl rfl rfl "bar" (by decide) (by decide)

/-- C3 counterexample: `create_tool_link` has no platform branch — on a
unix build it still writes the alias as a regular file holding a full copy
of the manager bytes, not as a symbolic link to anything. -/
theorem C3_counterexample :
    create_tool_link noFaults (State.mk [] (some [7]) none)
        (ToolAlias.mk "foo") =
      .ok (State.mk [("foo", Entry.file [7])] (some [7]) (some [7]))
    ∧ ∀ t : String, Entry.file ([7] : Bytes) ≠ Entry.symlink t :=
  ⟨rfl, fun _ h => Entry.noConfusion h⟩

/-- C5 (amended): every I/O error raised during the executable read, the
directory enumeration, the manager-alias write or a per-alias link write
aborts `recreate_all_links` with that error; the change-detection read of
the possibly-absent manager alias is the single exception, and there any
failure of the read — absence or any other I/O error — is collapsed to
empty prior content rather than surfaced. -/
theorem C5_error_propagation (pl : Platform) (s : State) (e : IOErr)
    (b : Bytes) (nm : String) :
    (s.cache = none →
      recreate_all_links pl { noFaults with readExe := some e } s = .error e)
    ∧ (s.cache = some b →
      recreate_all_links pl { noFaults with readDir := some e } s = .error e)
    ∧ (s.cache = some b →
      recreate_all_links pl { noFaults with writeAftman := some e } s =
        .error e)
    ∧ (s.cache = some b → nm ∈ s.aliasDir.map Prod.fst →
        nm ≠ aftman_path pl →
      recreate_all_links pl
        { noFaults with writeLink := fun m => if m = nm then some e else none }
        s = .error e)
    ∧ (s.cache = some b →
      ∃ r, recreate_all_links pl { noFaults with readAftman := some e } s =
        .ok r) := by
  refine ⟨?_, ?_, ?_, ?_, ?_⟩
  · intro hcache
    simp [recreate_all_links, aftman_contents, hcache, noFaults]
  · intro hcache
    simp [recreate_all_links, aftman_contents, hcache, noFaults]
  · intro hcache
    simp [recreate_all_links, aftman_contents, hcache, noFaults]
  · intro hcache hmem hne
    have hmemf : nm ∈ (s.aliasDir.map Prod.fst).filter
        (fun x => !decide (x = aftman_path pl)) := by
      simp [List.mem_filter, hmem, hne]
    have hw := writeLinks_single_fault pl
      { noFaults with writeLink := fun m => if m = nm then some e else none }
      b (aftman_path pl) nm e (by simp) (fun m hm => by simp [hm]) _
      (write_executable_file s.aliasDir (aftman_path pl) b) hmemf
    simp only [noFaults] at hw
    simp [recreate_all_links, aftman_contents, hcache, noFaults, hw]
  · intro hcache
    obtain ⟨d2, hw⟩ := writeLinks_total pl
      { noFaults with readAftman := some e } b (aftman_path pl)
      ((s.aliasDir.map Prod.fst).filter
        (fun nm => !decide (nm = aftman_path pl)))
      (fun _ _ => rfl)
      (write_executable_file s.aliasDir (aftman_path pl) b)
    exact ⟨_, recreate_eq pl _ s b s 0 d2
      (aftman_contents_cached _ _ _ hcache) rfl rfl hw⟩

/-- Witness for C5: an enumeration fault aborts the call with that fault. -/
theorem C5_witness :
    recreate_all_links (Platform.mk "" true "/")
        { noFaults with readDir := some (IOErr.other 13) }
        (State.mk [("bar", Entry.file [1])] (some [1]) (some [1])) =
      .error (IOErr.other 13) :=
  (C5_error_propagation (Platform.mk "" true "/")
    (State.mk [("bar", Entry.file [1])] (some [1]) (some [1]))
    (IOErr.other 13) [1] "bar").2.1 rfl

/-- C5 counterexample: injecting a non-absence I/O error (code 13,
permission-denied-like) into the change-detection read, while the manager
alias exists on disk with bytes equal to the resolved contents, does not
abort the call: the error is swallowed, the prior content is taken as
empty, and the call even reports `changed = true` although nothing
differed on disk. -/
theorem C5_counterexample :
    recreate_all_links (Platform.mk "" true "/")
        { noFaults with readAftman := some (IOErr.other 13) }
        (State.mk [("aftman", Entry.file [1])] (some [1]) (some [1])) =
      .ok (State.mk [("aftman", Entry.file [1])] (some [1]) (some [1]),
        true, true)
    ∧ ∀ er : IOErr,
        recreate_all_links (Platform.mk "" true "/")
          { noFaults with readAftman := some (IOErr.other 13) }
          (State.mk [("aftman", Entry.file [1])] (some [1]) (some [1])) ≠
        .error er := by
  have h0 : recreate_all_links (Platform.mk "" true "/")
      { noFaults with readAftman := some (IOErr.other 13) }
      (State.mk [("aftman", Entry.file [1])] (some [1]) (some [1])) =
    .ok (State.mk [("aftman", Entry.file [1])] (some [1]) (some [1]),
      true, true) := rfl
  exact ⟨h0, fun er h => Except.noConfusion (h0.symm.trans h)⟩

/-- C9: a successful `recreate_all_links` never deletes an alias-directory
entry: afterwards exactly the initial entry names plus the manager's own
alias path are present, and in particular every pre-existing name — whether
or not it corresponds to any known tool — is still present, rewritten in
place. -/
theorem C9_no_deletion (pl : Platform) (f : Faults) (s s' : State)
    (fd ch : Bool) (h : recreate_all_links pl f s = .ok (s', fd, ch))
    (m : String) :
    (m ∈ s'.aliasDir.map Prod.fst ↔
      m ∈ s.aliasDir.map Prod.fst ∨ m = aftman_path pl)
    ∧ (m ∈ s.aliasDir.map Prod.fst → m ∈ s'.aliasDir.map Prod.fst) := by
  obtain ⟨c, s1, n, d2, hc, -, -, -, -, -, -⟩ :=
    recreate_ok_elim pl f s s' fd ch h
  have post := recreate_post pl f s s' fd ch c s1 n hc h
  exact ⟨post.2.2.2.1 m, fun hm => (post.2.2.2.1 m).mpr (Or.inl hm)⟩

/-- Witness for C9: the unknown entry `x` survives a successful run. -/
theorem C9_witness :
    ("x" ∈ ([("x", Entry.symlink "aftman"), ("aftman", Entry.file [])] :
        Dir).map Prod.fst ↔
      "x" ∈ ([("x", Entry.file [5])] : Dir).map Prod.fst ∨
        "x" = aftman_path (Platform.mk "" true "/"))
    ∧ ("x" ∈ ([("x", Entry.file [5])] : Dir).map Prod.fst →
        "x" ∈ ([("x", Entry.symlink "aftman"), ("aftman", Entry.file [])] :
          Dir).map Prod.fst) :=
  C9_no_deletion (Platform.mk "" true "/") noFaults
    (State.mk [("x", Entry.file [5])] (some []) none)
    (State.mk [("x", Entry.symlink "aftman"), ("aftman", Entry.file [])]
      (some []) (some []))
    false false rfl "x"

end Rokit
